import Mathlib

set_option maxRecDepth 8000

namespace Sudoku

/-- A 9x9 Sudoku board, modelled as a total function from (row, column) to
the cell value; only indices below 9 are meaningful.  `0` denotes an empty
cell, mirroring the Python representation `self.board` (a list of nine
lists of nine integers). -/
abbrev Board : Type := Nat → Nat → Nat

/-- The all-zero board, as created by `Sudoku.__init__` and at the start of
`Sudoku.generate_puzzle` (`self.board = [[0] * 9 for _ in range(9)]`). -/
def zeroBoard : Board := fun _ _ => 0

/-- Convenience constructor: build a board from a list of rows; missing
entries default to `0`. -/
def mkBoard (l : List (List Nat)) : Board := fun i j => (l.getD i []).getD j 0

/-- The in-place assignment `self.board[r][c] = v`. -/
def setCell (b : Board) (r c v : Nat) : Board :=
  fun i j => if i = r ∧ j = c then v else b i j

/-- Helper for `find_empty`: scan the given rows in order, and within each
row scan columns 0..8 left to right, returning the first cell containing 0. -/
def firstEmptyIn (b : Board) : List Nat → Option (Nat × Nat)
  | [] => none
  | i :: rest =>
    match (List.range 9).find? (fun j => b i j == 0) with
    | some j => some (i, j)
    | none => firstEmptyIn b rest

/-- `Sudoku.find_empty`: the first empty cell (value 0) of the board in
row-major order, or `none` if the board has no empty cell. -/
def find_empty (b : Board) : Option (Nat × Nat) := firstEmptyIn b (List.range 9)

/-- `Sudoku.is_valid`: returns `false` if `num` occurs anywhere in row
`row`, anywhere in column `col`, or anywhere in the 3x3 box containing
(row, col) — including the cell (row, col) itself — and `true` otherwise.
The first scan mirrors `for x in range(9)` checking
`board[row][x] == num or board[x][col] == num`; the second mirrors the
double loop over the box starting at `(3*(row//3), 3*(col//3))`. -/
def is_valid (b : Board) (row col num : Nat) : Bool :=
  if (List.range 9).any (fun x => b row x == num || b x col == num) then false
  else if (List.range 3).any (fun i =>
      (List.range 3).any (fun j => b (i + 3 * (row / 3)) (j + 3 * (col / 3)) == num)) then
    false
  else true

/-- Number of empty cells of the board (a verification-side measure; the
source has no such counter, but `solve`'s recursion is bounded by it). -/
def countEmpty (b : Board) : Nat :=
  (List.range 81).countP (fun k => b (k / 9) (k % 9) == 0)

/-- The cells of row `i`, as a function of the position `t` within the row. -/
def rowCell (b : Board) (i t : Nat) : Nat := b i t

/-- The cells of column `j`, as a function of the position `t` within the
column. -/
def colCell (b : Board) (j t : Nat) : Nat := b t j

/-- The cells of the 3x3 box with index `k` (boxes numbered row-major), as a
function of the position `t < 9` within the box. -/
def boxCell (b : Board) (k t : Nat) : Nat :=
  b (3 * (k / 3) + t / 3) (3 * (k % 3) + t % 3)

/-- The index of the box containing cell (r, c). -/
def boxIdx (r c : Nat) : Nat := 3 * (r / 3) + c / 3

/-- A line (row, column or box, given by its cells `g 0 .. g 8`) has no
duplicate non-zero value. -/
def lineDistinct (g : Nat → Nat) : Prop :=
  ∀ t1, t1 < 9 → ∀ t2, t2 < 9 → t1 ≠ t2 → g t1 ≠ 0 → g t1 ≠ g t2

instance (g : Nat → Nat) : Decidable (lineDistinct g) := by
  unfold lineDistinct
  infer_instance

/-- The non-zero cells of the board are unique within every row, column and
3x3 box (the Sudoku consistency invariant on partial boards). -/
abbrev conflictFree (b : Board) : Prop :=
  (∀ i, i < 9 → lineDistinct (rowCell b i)) ∧
  (∀ j, j < 9 → lineDistinct (colCell b j)) ∧
  (∀ k, k < 9 → lineDistinct (boxCell b k))

/-- All meaningful cells hold values in [0, 9]. -/
abbrev inRange (b : Board) : Prop := ∀ i, i < 9 → ∀ j, j < 9 → b i j ≤ 9

/-- `s` preserves every non-zero (already placed) cell of `b`. -/
abbrev agrees (b s : Board) : Prop :=
  ∀ i, i < 9 → ∀ j, j < 9 → b i j ≠ 0 → s i j = b i j

/-- How many positions of the line `g` hold the digit `d`. -/
def countLine (g : Nat → Nat) (d : Nat) : Nat :=
  (List.range 9).countP (fun t => g t == d)

/-- A complete Sudoku solution: every cell holds a digit 1..9 and every
row, column and 3x3 box contains each digit 1..9 exactly once. -/
abbrev isFullSolution (b : Board) : Prop :=
  (∀ i, i < 9 → ∀ j, j < 9 → 1 ≤ b i j ∧ b i j ≤ 9) ∧
  (∀ i, i < 9 → ∀ d, 1 ≤ d → d ≤ 9 → countLine (rowCell b i) d = 1) ∧
  (∀ j, j < 9 → ∀ d, 1 ≤ d → d ≤ 9 → countLine (colCell b j) d = 1) ∧
  (∀ k, k < 9 → ∀ d, 1 ≤ d → d ≤ 9 → countLine (boxCell b k) d = 1)

/-- The candidate loop `for i in range(1, 10)` of `Sudoku.solve`, given the
recursive solver `rec` for the rest of the search: for each candidate `n`
in `ns`, if `is_valid` accepts it, place it (`self.board[row][col] = i`),
recurse, and on recursive failure reset the cell to 0 (the backtracking
step `self.board[row][col] = 0`) and try the next candidate; if the
candidates run out, return `False`.  The pair is (return value, board
state after the call), making the in-place mutation explicit. -/
def tryNums (rec : Board → Bool × Board) (r c : Nat) : Board → List Nat → Bool × Board
  | b, [] => (false, b)
  | b, n :: ns =>
    if is_valid b r c n then
      match rec (setCell b r c n) with
      | (true, b2) => (true, b2)
      | (false, b2) => tryNums rec r c (setCell b2 r c 0) ns
    else tryNums rec r c b ns

/-- Fuel-indexed version of `Sudoku.solve`: find the first empty cell; if
there is none the board is solved (`return True`); otherwise run the
candidate loop, whose recursive calls use one unit of fuel.  The Python
recursion needs no fuel: every recursive call is on a board with strictly
fewer empty cells, so any fuel above `countEmpty b` gives the exact
behaviour of the source (`solveAux_fuel_irrelevant`). -/
def solveAux : Nat → Board → Bool × Board
  | 0, b => (false, b)
  | fuel + 1, b =>
    match find_empty b with
    | none => (true, b)
    | some (r, c) => tryNums (solveAux fuel) r c b [1, 2, 3, 4, 5, 6, 7, 8, 9]

/-- `Sudoku.solve`: backtracking search over the first empty cell with
candidates 1..9 in ascending order.  Since a 9x9 board has at most 81
empty cells, fuel 82 always exceeds the recursion depth, so this equals
the Python recursion on every board. -/
def solve (b : Board) : Bool × Board := solveAux 82 b

/-- The difficulty table `{'Easy': 40, 'Medium': 52, 'Hard': 58, 'Expert': 62}`
looked up with `.get(difficulty, 52)`: the number of cells that
`generate_puzzle` tries to remove, defaulting to 52 for any other string. -/
def squaresToRemove (difficulty : String) : Nat :=
  if difficulty = "Easy" then 40
  else if difficulty = "Medium" then 52
  else if difficulty = "Hard" then 58
  else if difficulty = "Expert" then 62
  else 52

/-- The removal loop of `Sudoku.generate_puzzle`:
`while squares_to_remove > 0 and attempts < 1000`, pick a random cell
(`stream attempts` models the pair of `random.randint(0, 8)` results drawn
at that iteration; `randint` guarantees values in [0, 8], hence `Fin 9`);
if it is non-zero, zero it and decrement the removal budget; the attempt
counter increases every iteration. -/
def removeCells (stream : Nat → Fin 9 × Fin 9) (remaining attempts : Nat) (p : Board) :
    Board :=
  if h : 0 < remaining ∧ attempts < 1000 then
    if p (stream attempts).1.val (stream attempts).2.val ≠ 0 then
      removeCells stream (remaining - 1) (attempts + 1)
        (setCell p (stream attempts).1.val (stream attempts).2.val 0)
    else removeCells stream remaining (attempts + 1) p
  else p
termination_by 1000 - attempts
decreasing_by
  all_goals omega

/-- `Sudoku.generate_puzzle`: reset the board to all zeros, call `solve` to
build a full board (the board state after that call is the solution,
regardless of the returned flag), copy it, remove cells with the capped
random loop, and return `(self.puzzle, self.solution)`.  The random stream
is the only source of randomness and is consumed exclusively by the
removal loop — the board handed to `solve` is always the zero board. -/
def generate_puzzle (stream : Nat → Fin 9 × Fin 9) (difficulty : String) :
    Board × Board :=
  let solved := (solve zeroBoard).2
  (removeCells stream (squaresToRemove difficulty) 0 solved, solved)

/-- Modelled from the spec: the repository ships no scoring code (`main.py`
has no score computation), but the spec's Scorer contract (§4.5) defines
`computeScore(baseScore, elapsedSeconds, hintsUsed, penaltyPerHint)` as
`max(baseScore - elapsedSeconds - hintsUsed*penaltyPerHint, 0)` — a pure
function on integers. -/
def computeScore (baseScore elapsedSeconds hintsUsed penaltyPerHint : Int) : Int :=
  max (baseScore - elapsedSeconds - hintsUsed * penaltyPerHint) 0

/-- A complete, conflict-free Sudoku grid (the cyclically shifted pattern). -/
def bFull : Board := mkBoard
  [[1, 2, 3, 4, 5, 6, 7, 8, 9],
   [4, 5, 6, 7, 8, 9, 1, 2, 3],
   [7, 8, 9, 1, 2, 3, 4, 5, 6],
   [2, 3, 4, 5, 6, 7, 8, 9, 1],
   [5, 6, 7, 8, 9, 1, 2, 3, 4],
   [8, 9, 1, 2, 3, 4, 5, 6, 7],
   [3, 4, 5, 6, 7, 8, 9, 1, 2],
   [6, 7, 8, 9, 1, 2, 3, 4, 5],
   [9, 1, 2, 3, 4, 5, 6, 7, 8]]

/-- The board with every cell equal to 1: full (no empty cell) but not a
valid solution. -/
def onesBoard : Board := fun _ _ => 1

/-- A board whose single empty cell (0,0) admits no candidate: row 0 holds
1..8 and column 0 holds a 9; all other cells are non-zero. -/
def bStuck : Board := fun i j => if i = 0 then (if j = 0 then 0 else j) else 9

/-- A completely filled board with a duplicated 5 in row 0 (and many other
conflicts): it has no empty cell and no Sudoku solution. -/
def bConflictFull : Board := fun i j => if i = 0 ∧ j ≤ 1 then 5 else 7

/-- A conflict-free but unsolvable board: row 0 is 1..8 followed by an
empty cell, and column 8 already holds a 9 at row 1, so cell (0,8) has no
possible digit. -/
def bUnsat : Board :=
  mkBoard [[1, 2, 3, 4, 5, 6, 7, 8, 0], [0, 0, 0, 0, 0, 0, 0, 0, 9]]

/-- A board whose only non-zero cell is a 5 at (0,0). -/
def bOwn5 : Board := mkBoard [[5]]

/-- A board whose only non-zero cell is a 2 at (0,1). -/
def bRow2 : Board := mkBoard [[0, 2]]

/-- The constant random stream always picking cell (0,0). -/
def constStream : Nat → Fin 9 × Fin 9 := fun _ => (0, 0)

/-- The constant random stream always picking cell (1,1). -/
def otherStream : Nat → Fin 9 × Fin 9 := fun _ => (1, 1)

/-- `num` occurs nowhere in row `row`, column `col`, or the 3x3 box of
(row, col) — the cell (row, col) itself included. -/
abbrev noOccurrence (b : Board) (row col num : Nat) : Prop :=
  (∀ x, x < 9 → b row x ≠ num ∧ b x col ≠ num) ∧
  (∀ i, i < 3 → ∀ j, j < 3 → b (i + 3 * (row / 3)) (j + 3 * (col / 3)) ≠ num)

/-- `num` occurs nowhere in row `row`, column `col`, or the 3x3 box of
(row, col), the cell (row, col) itself excepted — the spec's reading of
"appears elsewhere". -/
abbrev noOccurrenceElsewhere (b : Board) (row col num : Nat) : Prop :=
  (∀ x, x < 9 → x ≠ col → b row x ≠ num) ∧
  (∀ x, x < 9 → x ≠ row → b x col ≠ num) ∧
  (∀ i, i < 3 → ∀ j, j < 3 →
    ¬(i + 3 * (row / 3) = row ∧ j + 3 * (col / 3) = col) →
    b (i + 3 * (row / 3)) (j + 3 * (col / 3)) ≠ num)

/-- The board has a Sudoku solution: a full valid grid that keeps every
already-placed (non-zero) cell. -/
def hasSolution (b : Board) : Prop := ∃ s, agrees b s ∧ isFullSolution s

theorem setCell_same (b : Board) (r c v : Nat) : setCell b r c v r c = v := by
  simp [setCell]

theorem setCell_ne (b : Board) (r c v i j : Nat) (h : ¬(i = r ∧ j = c)) :
    setCell b r c v i j = b i j := by
  simp only [setCell, if_neg h]

theorem setCell_cancel (b : Board) (r c : Nat) (h : b r c = 0) :
    setCell b r c 0 = b := by
  funext i j
  by_cases hij : i = r ∧ j = c
  · simp [setCell, hij, hij.1, hij.2, h]
  · simp [setCell, hij]

theorem setCell_setCell (b : Board) (r c v w : Nat) :
    setCell (setCell b r c v) r c w = setCell b r c w := by
  funext i j
  by_cases hij : i = r ∧ j = c
  · simp [setCell, hij]
  · simp [setCell, hij]

theorem firstEmptyIn_eq_none (b : Board) :
    ∀ l : List Nat, firstEmptyIn b l = none →
      ∀ i ∈ l, ∀ j, j < 9 → b i j ≠ 0 := by
  intro l
  induction l with
  | nil => intro _ i hi; simp at hi
  | cons a rest ih =>
    intro h i hi j hj
    cases hfind : (List.range 9).find? (fun j => b a j == 0) with
    | some x => simp [firstEmptyIn, hfind] at h
    | none =>
      simp only [firstEmptyIn, hfind] at h
      rcases List.mem_cons.mp hi with rfl | hmem
      · have := List.find?_eq_none.mp hfind j (List.mem_range.mpr hj)
        simpa using this
      · exact ih h i hmem j hj

theorem firstEmptyIn_complete (b : Board) :
    ∀ l : List Nat, (∀ i ∈ l, ∀ j, j < 9 → b i j ≠ 0) →
      firstEmptyIn b l = none := by
  intro l
  induction l with
  | nil => intro _; rfl
  | cons a rest ih =>
    intro h
    have hfind : (List.range 9).find? (fun j => b a j == 0) = none := by
      apply List.find?_eq_none.mpr
      intro j hj
      simpa using h a (List.mem_cons_self a rest) j (List.mem_range.mp hj)
    simp only [firstEmptyIn, hfind]
    exact ih (fun i hi => h i (List.mem_cons_of_mem a hi))

theorem firstEmptyIn_eq_some (b : Board) :
    ∀ l : List Nat, ∀ r c : Nat, firstEmptyIn b l = some (r, c) →
      r ∈ l ∧ c < 9 ∧ b r c = 0 := by
  intro l
  induction l with
  | nil => intro r c h; simp [firstEmptyIn] at h
  | cons a rest ih =>
    intro r c h
    cases hfind : (List.range 9).find? (fun j => b a j == 0) with
    | some x =>
      simp only [firstEmptyIn, hfind, Option.some.injEq, Prod.mk.injEq] at h
      obtain ⟨rfl, rfl⟩ := h
      refine ⟨List.mem_cons_self _ _, ?_, ?_⟩
      · exact List.mem_range.mp (List.mem_of_find?_eq_some hfind)
      · simpa using List.find?_some hfind
    | none =>
      simp only [firstEmptyIn, hfind] at h
      obtain ⟨hmem, hc, hb⟩ := ih r c h
      exact ⟨List.mem_cons_of_mem a hmem, hc, hb⟩

theorem find_empty_eq_none (b : Board) (h : find_empty b = none) :
    ∀ i, i < 9 → ∀ j, j < 9 → b i j ≠ 0 := by
  intro i hi j hj
  exact firstEmptyIn_eq_none b (List.range 9) h i (List.mem_range.mpr hi) j hj

theorem find_empty_of_noEmpty (b : Board)
    (h : ∀ i, i < 9 → ∀ j, j < 9 → b i j ≠ 0) : find_empty b = none := by
  apply firstEmptyIn_complete
  intro i hi j hj
  exact h i (List.mem_range.mp hi) j hj

theorem find_empty_eq_some (b : Board) (r c : Nat)
    (h : find_empty b = some (r, c)) : r < 9 ∧ c < 9 ∧ b r c = 0 := by
  obtain ⟨hmem, hc, hb⟩ := firstEmptyIn_eq_some b (List.range 9) r c h
  exact ⟨List.mem_range.mp hmem, hc, hb⟩

theorem is_valid_iff (b : Board) (row col num : Nat) :
    is_valid b row col num = true ↔
      (∀ x, x < 9 → b row x ≠ num ∧ b x col ≠ num) ∧
      (∀ i, i < 3 → ∀ j, j < 3 → b (i + 3 * (row / 3)) (j + 3 * (col / 3)) ≠ num) := by
  have H1 : ((List.range 9).any (fun x => b row x == num || b x col == num) = false) ↔
      (∀ x, x < 9 → b row x ≠ num ∧ b x col ≠ num) := by
    rw [List.any_eq_false]
    constructor
    · intro h x hx
      have := h x (List.mem_range.mpr hx)
      simp only [Bool.or_eq_true, beq_iff_eq] at this
      push_neg at this
      exact this
    · intro h x hx
      have := h x (List.mem_range.mp hx)
      simp only [Bool.or_eq_true, beq_iff_eq]
      push_neg
      exact this
  have H2 : ((List.range 3).any (fun i =>
      (List.range 3).any (fun j => b (i + 3 * (row / 3)) (j + 3 * (col / 3)) == num)) = false) ↔
      (∀ i, i < 3 → ∀ j, j < 3 → b (i + 3 * (row / 3)) (j + 3 * (col / 3)) ≠ num) := by
    rw [List.any_eq_false]
    constructor
    · intro h i hi j hj
      have h2 := h i (List.mem_range.mpr hi)
      rw [Bool.not_eq_true, List.any_eq_false] at h2
      have h3 := h2 j (List.mem_range.mpr hj)
      simpa using h3
    · intro h i hi
      rw [Bool.not_eq_true, List.any_eq_false]
      intro j hj
      simpa using h i (List.mem_range.mp hi) j (List.mem_range.mp hj)
  unfold is_valid
  cases hc1 : (List.range 9).any (fun x => b row x == num || b x col == num) with
  | true =>
    rw [if_pos rfl]
    constructor
    · intro hh; exact absurd hh Bool.false_ne_true
    · rintro ⟨hrc, _⟩
      have hf := H1.mpr hrc
      rw [hf] at hc1
      exact absurd hc1 Bool.false_ne_true
  | false =>
    cases hc2 : (List.range 3).any (fun i =>
        (List.range 3).any (fun j => b (i + 3 * (row / 3)) (j + 3 * (col / 3)) == num)) with
    | true =>
      rw [if_neg Bool.false_ne_true, if_pos rfl]
      constructor
      · intro hh; exact absurd hh Bool.false_ne_true
      · rintro ⟨_, hbox⟩
        have hf := H2.mpr hbox
        rw [hf] at hc2
        exact absurd hc2 Bool.false_ne_true
    | false =>
      rw [if_neg Bool.false_ne_true, if_neg Bool.false_ne_true]
      exact ⟨fun _ => ⟨H1.mp hc1, H2.mp hc2⟩, fun _ => rfl⟩

theorem one_le_countP_of_mem {p : Nat → Bool} :
    ∀ {l : List Nat} {a : Nat}, a ∈ l → p a = true → 1 ≤ l.countP p := by
  intro l
  induction l with
  | nil => intro a ha; simp at ha
  | cons x t ih =>
    intro a ha hp
    rcases List.mem_cons.mp ha with rfl | hmem
    · rw [List.countP_cons_of_pos _ _ hp]
      omega
    · have h1 := ih hmem hp
      rw [List.countP_cons]
      omega

theorem countP_le_one_of_unique {p : Nat → Bool} :
    ∀ {l : List Nat}, l.Nodup →
      (∀ x ∈ l, ∀ y ∈ l, p x = true → p y = true → x = y) → l.countP p ≤ 1 := by
  intro l
  induction l with
  | nil => intro _ _; simp
  | cons x t ih =>
    intro hnd huniq
    have hx : x ∉ t := (List.nodup_cons.mp hnd).1
    have htnd : t.Nodup := (List.nodup_cons.mp hnd).2
    by_cases hpx : p x = true
    · have hzero : t.countP p = 0 := by
        rw [List.countP_eq_zero]
        intro a ha hpa
        have hax : a = x :=
          huniq a (List.mem_cons_of_mem x ha) x (List.mem_cons_self x t) hpa hpx
        exact absurd (hax ▸ ha) hx
      rw [List.countP_cons_of_pos _ _ hpx, hzero]
    · have hle := ih htnd
        (fun a ha y hy => huniq a (List.mem_cons_of_mem x ha) y (List.mem_cons_of_mem x hy))
      rw [List.countP_cons_of_neg _ _ hpx]
      exact hle

theorem two_le_countP {p : Nat → Bool} :
    ∀ {l : List Nat} {a b : Nat}, a ∈ l → b ∈ l → a ≠ b →
      p a = true → p b = true → 2 ≤ l.countP p := by
  intro l
  induction l with
  | nil => intro a b ha; simp at ha
  | cons x t ih =>
    intro a b ha hb hne hpa hpb
    rcases List.mem_cons.mp ha with rfl | hma
    · have hbt : b ∈ t := by
        rcases List.mem_cons.mp hb with rfl | h
        · exact absurd rfl hne
        · exact h
      have h1 := one_le_countP_of_mem hbt hpb
      rw [List.countP_cons_of_pos _ _ hpa]
      omega
    · rcases List.mem_cons.mp hb with rfl | hmb
      · have h1 := one_le_countP_of_mem hma hpa
        rw [List.countP_cons_of_pos _ _ hpb]
        omega
      · have h2 := ih hma hmb hne hpa hpb
        rw [List.countP_cons]
        omega

theorem countP_congr_mem {p q : Nat → Bool} :
    ∀ {l : List Nat}, (∀ a ∈ l, p a = q a) → l.countP p = l.countP q := by
  intro l
  induction l with
  | nil => intro _; rfl
  | cons x t ih =>
    intro h
    have hx := h x (List.mem_cons_self x t)
    have ht := ih (fun a ha => h a (List.mem_cons_of_mem x ha))
    rw [List.countP_cons, List.countP_cons, hx, ht]

theorem countP_pred_flip {p q : Nat → Bool} (k0 : Nat) :
    ∀ {l : List Nat}, l.Nodup → k0 ∈ l → p k0 = true → q k0 = false →
      (∀ x ∈ l, x ≠ k0 → p x = q x) → l.countP q + 1 = l.countP p := by
  intro l
  induction l with
  | nil => intro _ hk; simp at hk
  | cons x t ih =>
    intro hnd hk hp hq hagree
    have hx : x ∉ t := (List.nodup_cons.mp hnd).1
    have htnd : t.Nodup := (List.nodup_cons.mp hnd).2
    by_cases hxk : x = k0
    · have heq : t.countP p = t.countP q := by
        apply countP_congr_mem
        intro a ha
        have hak : a ≠ k0 := fun h => hx (hxk ▸ h ▸ ha)
        exact hagree a (List.mem_cons_of_mem x ha) hak
      have hqx : ¬ q x = true := by rw [hxk, hq]; exact Bool.false_ne_true
      have hpx : p x = true := by rw [hxk]; exact hp
      rw [List.countP_cons_of_neg _ _ hqx, List.countP_cons_of_pos _ _ hpx, heq]
    · have hkt : k0 ∈ t := by
        rcases List.mem_cons.mp hk with h | h
        · exact absurd h.symm hxk
        · exact h
      have hx_eq := hagree x (List.mem_cons_self x t) hxk
      have hih := ih htnd hkt hp hq (fun a ha => hagree a (List.mem_cons_of_mem x ha))
      rw [List.countP_cons, List.countP_cons, hx_eq]
      omega

theorem countEmpty_le (b : Board) : countEmpty b ≤ 81 := by
  unfold countEmpty
  have h : ∀ l : List Nat, l.countP (fun k => b (k / 9) (k % 9) == 0) ≤ l.length := by
    intro l
    induction l with
    | nil => simp
    | cons x t ih =>
      by_cases hx : (fun k => b (k / 9) (k % 9) == 0) x = true
      · rw [List.countP_cons_of_pos (fun k => b (k / 9) (k % 9) == 0) t hx]
        simp only [List.length_cons]
        omega
      · rw [List.countP_cons_of_neg (fun k => b (k / 9) (k % 9) == 0) t hx]
        simp only [List.length_cons]
        omega
  have h81 := h (List.range 81)
  simpa using h81

theorem countEmpty_pos (b : Board) (r c : Nat) (hr : r < 9) (hc : c < 9)
    (h : b r c = 0) : 0 < countEmpty b := by
  have hk : 9 * r + c ∈ List.range 81 := List.mem_range.mpr (by omega)
  have hdiv : (9 * r + c) / 9 = r := by omega
  have hmod : (9 * r + c) % 9 = c := by omega
  have hp : (fun k => b (k / 9) (k % 9) == 0) (9 * r + c) = true := by
    simp only [hdiv, hmod, h, beq_self_eq_true]
  exact one_le_countP_of_mem hk hp

theorem countEmpty_setCell (b : Board) (r c n : Nat) (hr : r < 9) (hc : c < 9)
    (h0 : b r c = 0) (hn : n ≠ 0) :
    countEmpty (setCell b r c n) + 1 = countEmpty b := by
  unfold countEmpty
  apply countP_pred_flip (9 * r + c)
  · exact List.nodup_range _
  · exact List.mem_range.mpr (by omega)
  · have hdiv : (9 * r + c) / 9 = r := by omega
    have hmod : (9 * r + c) % 9 = c := by omega
    simp only [hdiv, hmod, h0, beq_self_eq_true]
  · have hdiv : (9 * r + c) / 9 = r := by omega
    have hmod : (9 * r + c) % 9 = c := by omega
    simp only [hdiv, hmod, setCell_same]
    exact beq_eq_false_iff_ne.mpr hn
  · intro x hx hxk
    have hx81 := List.mem_range.mp hx
    have hne : ¬(x / 9 = r ∧ x % 9 = c) := by
      rintro ⟨h1, h2⟩
      exact hxk (by omega)
    simp only [setCell_ne b r c n _ _ hne]

theorem countLine_eq_one (g : Nat → Nat) (hd : lineDistinct g)
    (hr : ∀ t, t < 9 → 1 ≤ g t ∧ g t ≤ 9) :
    ∀ d, 1 ≤ d → d ≤ 9 → countLine g d = 1 := by
  intro d h1 h9
  have hle : countLine g d ≤ 1 := by
    apply countP_le_one_of_unique (List.nodup_range _)
    intro x hx y hy hpx hpy
    have hx9 := List.mem_range.mp hx
    have hy9 := List.mem_range.mp hy
    have hgx : g x = d := by simpa using hpx
    have hgy : g y = d := by simpa using hpy
    by_contra hne
    have hne0 : g x ≠ 0 := by omega
    exact hd x hx9 y hy9 hne hne0 (hgx.trans hgy.symm)
  have hge : 1 ≤ countLine g d := by
    have hinj : Function.Injective (fun t : Fin 9 =>
        (⟨g t.val - 1, by have := hr t.val t.isLt; omega⟩ : Fin 9)) := by
      intro t1 t2 h
      have hval : g t1.val - 1 = g t2.val - 1 := congrArg Fin.val h
      have h1b := hr t1.val t1.isLt
      have h2b := hr t2.val t2.isLt
      have heq : g t1.val = g t2.val := by omega
      by_contra hne
      have hvne : t1.val ≠ t2.val := Fin.val_ne_of_ne hne
      exact hd t1.val t1.isLt t2.val t2.isLt hvne (by omega) heq
    have hsurj := Finite.injective_iff_surjective.mp hinj
    obtain ⟨t, ht⟩ := hsurj ⟨d - 1, by omega⟩
    have htb := hr t.val t.isLt
    have hval : g t.val - 1 = d - 1 := congrArg Fin.val ht
    have hgt : g t.val = d := by omega
    exact one_le_countP_of_mem (List.mem_range.mpr t.isLt)
      (by simpa using hgt)
  omega

theorem tryNums_rollback (rec : Board → Bool × Board) (r c : Nat)
    (hrec : ∀ b, (rec b).1 = false → (rec b).2 = b) :
    ∀ ns b, b r c = 0 → (tryNums rec r c b ns).1 = false →
      (tryNums rec r c b ns).2 = b := by
  intro ns
  induction ns with
  | nil => intro b _ _; rfl
  | cons n ns ih =>
    intro b h0 hfalse
    by_cases hv : is_valid b r c n = true
    · cases hres : rec (setCell b r c n) with
      | mk fl b2 =>
        cases fl with
        | true =>
          have hstep : tryNums rec r c b (n :: ns) = (true, b2) := by
            simp only [tryNums, hv, if_true, hres]
          rw [hstep] at hfalse
          simp at hfalse
        | false =>
          have hstep : tryNums rec r c b (n :: ns) =
              tryNums rec r c (setCell b2 r c 0) ns := by
            simp only [tryNums, hv, if_true, hres]
          have h2 := hrec (setCell b r c n) (by rw [hres])
          rw [hres] at h2
          have hb2 : b2 = setCell b r c n := h2
          have hboard : setCell b2 r c 0 = b := by
            rw [hb2, setCell_setCell, setCell_cancel b r c h0]
          rw [hstep, hboard] at hfalse ⊢
          exact ih b h0 hfalse
    · have hv0 : is_valid b r c n = false := by
        cases h : is_valid b r c n
        · rfl
        · exact absurd h hv
      have hstep : tryNums rec r c b (n :: ns) = tryNums rec r c b ns := by
        simp only [tryNums, hv0, Bool.false_eq_true, if_false]
      rw [hstep] at hfalse ⊢
      exact ih b h0 hfalse

theorem solveAux_rollback :
    ∀ fuel b, (solveAux fuel b).1 = false → (solveAux fuel b).2 = b := by
  intro fuel
  induction fuel with
  | zero => intro b _; rfl
  | succ fuel ih =>
    intro b hfalse
    cases hfe : find_empty b with
    | none =>
      have hstep : solveAux (fuel + 1) b = (true, b) := by
        simp only [solveAux, hfe]
      rw [hstep] at hfalse
      simp at hfalse
    | some rc =>
      obtain ⟨r, c⟩ := rc
      obtain ⟨hr, hc, h0⟩ := find_empty_eq_some b r c hfe
      have hstep : solveAux (fuel + 1) b =
          tryNums (solveAux fuel) r c b [1, 2, 3, 4, 5, 6, 7, 8, 9] := by
        simp only [solveAux, hfe]
      rw [hstep] at hfalse ⊢
      exact tryNums_rollback (solveAux fuel) r c ih _ b h0 hfalse

theorem boxIdx_lt (r c : Nat) (hr : r < 9) (hc : c < 9) : boxIdx r c < 9 := by
  simp only [boxIdx]
  omega

theorem box_not_app (b : Board) (r c n : Nat) (hr : r < 9) (hc : c < 9)
    (hbox : ∀ i, i < 3 → ∀ j, j < 3 → b (i + 3 * (r / 3)) (j + 3 * (c / 3)) ≠ n) :
    ∀ t, t < 9 → boxCell b (boxIdx r c) t ≠ n := by
  intro t ht
  have h1 : boxCell b (boxIdx r c) t = b (t / 3 + 3 * (r / 3)) (t % 3 + 3 * (c / 3)) := by
    simp only [boxCell, boxIdx]
    have e1 : 3 * ((3 * (r / 3) + c / 3) / 3) + t / 3 = t / 3 + 3 * (r / 3) := by omega
    have e2 : 3 * ((3 * (r / 3) + c / 3) % 3) + t % 3 = t % 3 + 3 * (c / 3) := by omega
    rw [e1, e2]
  rw [h1]
  exact hbox (t / 3) (by omega) (t % 3) (by omega)

theorem rowCell_setCell (b : Board) (r c n i t : Nat) :
    rowCell (setCell b r c n) i t = if i = r ∧ t = c then n else rowCell b i t := rfl

theorem colCell_setCell (b : Board) (r c n j t : Nat) :
    colCell (setCell b r c n) j t = if t = r ∧ j = c then n else colCell b j t := rfl

theorem boxCell_setCell (b : Board) (r c n k t : Nat) (hr : r < 9) (hc : c < 9)
    (ht : t < 9) :
    boxCell (setCell b r c n) k t =
      if k = boxIdx r c ∧ t = 3 * (r % 3) + c % 3 then n else boxCell b k t := by
  by_cases h : k = boxIdx r c ∧ t = 3 * (r % 3) + c % 3
  · have hb : boxIdx r c = 3 * (r / 3) + c / 3 := rfl
    have hX : 3 * (k / 3) + t / 3 = r := by rw [h.1, h.2, hb]; omega
    have hY : 3 * (k % 3) + t % 3 = c := by rw [h.1, h.2, hb]; omega
    simp only [boxCell, setCell, hX, hY, if_pos h]
    simp
  · have hb : boxIdx r c = 3 * (r / 3) + c / 3 := rfl
    have hno : ¬(3 * (k / 3) + t / 3 = r ∧ 3 * (k % 3) + t % 3 = c) := by
      rintro ⟨h1, h2⟩
      apply h
      constructor
      · rw [hb]; omega
      · omega
    simp only [boxCell, setCell, if_neg hno, if_neg h]

theorem lineDistinct_congr (g g2 : Nat → Nat) (heq : ∀ t, t < 9 → g t = g2 t)
    (hd : lineDistinct g) : lineDistinct g2 := by
  intro t1 h1 t2 h2 hne hz
  rw [← heq t1 h1, ← heq t2 h2]
  rw [← heq t1 h1] at hz
  exact hd t1 h1 t2 h2 hne hz

theorem lineDistinct_update (g : Nat → Nat) (t0 n : Nat) (hd : lineDistinct g)
    (hnoapp : ∀ t, t < 9 → g t ≠ n) (hn : n ≠ 0) :
    lineDistinct (fun t => if t = t0 then n else g t) := by
  intro t1 h1 t2 h2 hne hz
  by_cases e1 : t1 = t0
  · have e2 : ¬ t2 = t0 := fun h => hne (e1.trans h.symm)
    simp only [e1, if_pos rfl, if_neg e2]
    exact fun h => hnoapp t2 h2 h.symm
  · by_cases e2 : t2 = t0
    · simp only [if_neg e1, if_pos e2]
      simp only [if_neg e1] at hz
      exact hnoapp t1 h1
    · simp only [if_neg e1, if_neg e2]
      simp only [if_neg e1] at hz
      exact hd t1 h1 t2 h2 hne hz

theorem conflictFree_setCell (b : Board) (r c n : Nat) (hr : r < 9) (hc : c < 9)
    (h0 : b r c = 0) (hn : 1 ≤ n) (hv : is_valid b r c n = true)
    (hcf : conflictFree b) : conflictFree (setCell b r c n) := by
  obtain ⟨hrow, hbox⟩ := (is_valid_iff b r c n).mp hv
  obtain ⟨hcfr, hcfc, hcfb⟩ := hcf
  refine ⟨?_, ?_, ?_⟩
  · intro i hi
    by_cases hir : i = r
    · subst hir
      apply lineDistinct_congr (fun t => if t = c then n else rowCell b i t)
      · intro t ht
        rw [rowCell_setCell]
        by_cases htc : t = c
        · simp [htc]
        · simp [htc]
      · apply lineDistinct_update _ _ _ (hcfr i hi)
        · intro t ht
          exact (hrow t ht).1
        · omega
    · apply lineDistinct_congr (rowCell b i)
      · intro t ht
        rw [rowCell_setCell]
        have : ¬(i = r ∧ t = c) := fun h => hir h.1
        rw [if_neg this]
      · exact hcfr i hi
  · intro j hj
    by_cases hjc : j = c
    · subst hjc
      apply lineDistinct_congr (fun t => if t = r then n else colCell b j t)
      · intro t ht
        rw [colCell_setCell]
        by_cases htr : t = r
        · simp [htr]
        · simp [htr]
      · apply lineDistinct_update _ _ _ (hcfc j hj)
        · intro t ht
          exact (hrow t ht).2
        · omega
    · apply lineDistinct_congr (colCell b j)
      · intro t ht
        rw [colCell_setCell]
        have : ¬(t = r ∧ j = c) := fun h => hjc h.2
        rw [if_neg this]
      · exact hcfc j hj
  · intro k hk
    by_cases hkb : k = boxIdx r c
    · subst hkb
      apply lineDistinct_congr
        (fun t => if t = 3 * (r % 3) + c % 3 then n else boxCell b (boxIdx r c) t)
      · intro t ht
        rw [boxCell_setCell b r c n _ t hr hc ht]
        by_cases htt : t = 3 * (r % 3) + c % 3
        · simp [htt]
        · simp [htt]
      · apply lineDistinct_update _ _ _ (hcfb _ hk)
        · exact box_not_app b r c n hr hc hbox
        · omega
    · apply lineDistinct_congr (boxCell b k)
      · intro t ht
        rw [boxCell_setCell b r c n k t hr hc ht]
        have : ¬(k = boxIdx r c ∧ t = 3 * (r % 3) + c % 3) := fun h => hkb h.1
        rw [if_neg this]
      · exact hcfb k hk

theorem inRange_setCell (b : Board) (r c n : Nat) (hin : inRange b) (hn : n ≤ 9) :
    inRange (setCell b r c n) := by
  intro i hi j hj
  by_cases hij : i = r ∧ j = c
  · rw [setCell, if_pos hij]
    exact hn
  · rw [setCell_ne _ _ _ _ _ _ hij]
    exact hin i hi j hj

theorem agrees_setCell (b : Board) (r c n : Nat) (h0 : b r c = 0) :
    agrees b (setCell b r c n) := by
  intro i hi j hj hz
  apply setCell_ne
  rintro ⟨rfl, rfl⟩
  exact hz h0

theorem agrees_trans (a b c : Board) (h1 : agrees a b) (h2 : agrees b c) :
    agrees a c := by
  intro i hi j hj hz
  have hb := h1 i hi j hj hz
  have hbz : b i j ≠ 0 := by rw [hb]; exact hz
  exact (h2 i hi j hj hbz).trans hb

theorem tryNums_sound (rec : Board → Bool × Board) (r c : Nat) (hr : r < 9) (hc : c < 9)
    (hrb : ∀ b, (rec b).1 = false → (rec b).2 = b)
    (hsound : ∀ b, inRange b → conflictFree b → (rec b).1 = true →
      inRange (rec b).2 ∧ conflictFree (rec b).2 ∧
      (∀ i, i < 9 → ∀ j, j < 9 → (rec b).2 i j ≠ 0) ∧ agrees b (rec b).2) :
    ∀ ns b, (∀ n ∈ ns, 1 ≤ n ∧ n ≤ 9) → b r c = 0 → inRange b → conflictFree b →
      (tryNums rec r c b ns).1 = true →
      inRange (tryNums rec r c b ns).2 ∧ conflictFree (tryNums rec r c b ns).2 ∧
      (∀ i, i < 9 → ∀ j, j < 9 → (tryNums rec r c b ns).2 i j ≠ 0) ∧
      agrees b (tryNums rec r c b ns).2 := by
  intro ns
  induction ns with
  | nil => intro b _ _ _ _ htrue; simp [tryNums] at htrue
  | cons n ns ih =>
    intro b hns h0 hin hcf htrue
    have hn19 := hns n (List.mem_cons_self n ns)
    by_cases hv : is_valid b r c n = true
    · cases hres : rec (setCell b r c n) with
      | mk fl b2 =>
        cases fl with
        | true =>
          have hstep : tryNums rec r c b (n :: ns) = (true, b2) := by
            simp only [tryNums, hv, if_true, hres]
          have hin2 : inRange (setCell b r c n) := inRange_setCell b r c n hin hn19.2
          have hcf2 : conflictFree (setCell b r c n) :=
            conflictFree_setCell b r c n hr hc h0 hn19.1 hv hcf
          have hs := hsound (setCell b r c n) hin2 hcf2 (by rw [hres])
          rw [hres] at hs
          rw [hstep]
          exact ⟨hs.1, hs.2.1, hs.2.2.1,
            agrees_trans b (setCell b r c n) b2 (agrees_setCell b r c n h0) hs.2.2.2⟩
        | false =>
          have h2 := hrb (setCell b r c n) (by rw [hres])
          rw [hres] at h2
          have hb2 : b2 = setCell b r c n := h2
          have hboard : setCell b2 r c 0 = b := by
            rw [hb2, setCell_setCell, setCell_cancel b r c h0]
          have hstep : tryNums rec r c b (n :: ns) = tryNums rec r c b ns := by
            simp only [tryNums, hv, if_true, hres, hboard]
          rw [hstep] at htrue ⊢
          exact ih b (fun m hm => hns m (List.mem_cons_of_mem n hm)) h0 hin hcf htrue
    · have hv0 : is_valid b r c n = false := by
        cases h : is_valid b r c n
        · rfl
        · exact absurd h hv
      have hstep : tryNums rec r c b (n :: ns) = tryNums rec r c b ns := by
        simp only [tryNums, hv0, Bool.false_eq_true, if_false]
      rw [hstep] at htrue ⊢
      exact ih b (fun m hm => hns m (List.mem_cons_of_mem n hm)) h0 hin hcf htrue

theorem solveAux_sound :
    ∀ fuel b, inRange b → conflictFree b → (solveAux fuel b).1 = true →
      inRange (solveAux fuel b).2 ∧ conflictFree (solveAux fuel b).2 ∧
      (∀ i, i < 9 → ∀ j, j < 9 → (solveAux fuel b).2 i j ≠ 0) ∧
      agrees b (solveAux fuel b).2 := by
  intro fuel
  induction fuel with
  | zero => intro b _ _ htrue; simp [solveAux] at htrue
  | succ fuel ih =>
    intro b hin hcf htrue
    cases hfe : find_empty b with
    | none =>
      have hstep : solveAux (fuel + 1) b = (true, b) := by
        simp only [solveAux, hfe]
      rw [hstep] at htrue ⊢
      exact ⟨hin, hcf, find_empty_eq_none b hfe, fun i hi j hj _ => rfl⟩
    | some rc =>
      obtain ⟨r, c⟩ := rc
      obtain ⟨hr, hc, h0⟩ := find_empty_eq_some b r c hfe
      have hstep : solveAux (fuel + 1) b =
          tryNums (solveAux fuel) r c b [1, 2, 3, 4, 5, 6, 7, 8, 9] := by
        simp only [solveAux, hfe]
      rw [hstep] at htrue ⊢
      exact tryNums_sound (solveAux fuel) r c hr hc (solveAux_rollback fuel) ih
        [1, 2, 3, 4, 5, 6, 7, 8, 9] b (by decide) h0 hin hcf htrue

theorem full_of (b : Board) (hin : inRange b) (hcf : conflictFree b)
    (hne : ∀ i, i < 9 → ∀ j, j < 9 → b i j ≠ 0) : isFullSolution b := by
  obtain ⟨hcfr, hcfc, hcfb⟩ := hcf
  refine ⟨?_, ?_, ?_, ?_⟩
  · intro i hi j hj
    have h1 := hin i hi j hj
    have h2 := hne i hi j hj
    omega
  · intro i hi d h1 h9
    apply countLine_eq_one (rowCell b i) (hcfr i hi) ?_ d h1 h9
    intro t ht
    have ha := hin i hi t ht
    have hb := hne i hi t ht
    simp only [rowCell]
    omega
  · intro j hj d h1 h9
    apply countLine_eq_one (colCell b j) (hcfc j hj) ?_ d h1 h9
    intro t ht
    have ha := hin t ht j hj
    have hb := hne t ht j hj
    simp only [colCell]
    omega
  · intro k hk d h1 h9
    apply countLine_eq_one (boxCell b k) (hcfb k hk) ?_ d h1 h9
    intro t ht
    have hX : 3 * (k / 3) + t / 3 < 9 := by omega
    have hY : 3 * (k % 3) + t % 3 < 9 := by omega
    have ha := hin _ hX _ hY
    have hb := hne _ hX _ hY
    simp only [boxCell]
    omega

theorem countEmpty_eq_zero (b : Board) (h : countEmpty b = 0) :
    ∀ i, i < 9 → ∀ j, j < 9 → b i j ≠ 0 := by
  intro i hi j hj hz
  have := countEmpty_pos b i j hi hj hz
  omega

theorem tryNums_fuel_congr (rec1 rec2 : Board → Bool × Board) (r c e : Nat)
    (hrb1 : ∀ b, (rec1 b).1 = false → (rec1 b).2 = b)
    (hr : r < 9) (hc : c < 9)
    (hEq : ∀ b, countEmpty b < e → rec1 b = rec2 b) :
    ∀ ns b, (∀ n ∈ ns, 1 ≤ n) → b r c = 0 → countEmpty b = e →
      tryNums rec1 r c b ns = tryNums rec2 r c b ns := by
  intro ns
  induction ns with
  | nil => intro b _ _ _; rfl
  | cons n ns ih =>
    intro b hns h0 hce
    have hn1 := hns n (List.mem_cons_self n ns)
    by_cases hv : is_valid b r c n = true
    · have hcount : countEmpty (setCell b r c n) < e := by
        have := countEmpty_setCell b r c n hr hc h0 (by omega)
        omega
      have heq := hEq (setCell b r c n) hcount
      cases hres : rec1 (setCell b r c n) with
      | mk fl b2 =>
        have hres2 : rec2 (setCell b r c n) = (fl, b2) := by rw [← heq, hres]
        cases fl with
        | true =>
          have h1 : tryNums rec1 r c b (n :: ns) = (true, b2) := by
            simp only [tryNums, hv, if_true, hres]
          have h2 : tryNums rec2 r c b (n :: ns) = (true, b2) := by
            simp only [tryNums, hv, if_true, hres2]
          rw [h1, h2]
        | false =>
          have hb2 : b2 = setCell b r c n := by
            have h3 := hrb1 (setCell b r c n) (by rw [hres])
            rw [hres] at h3
            exact h3
          have hboard : setCell b2 r c 0 = b := by
            rw [hb2, setCell_setCell, setCell_cancel b r c h0]
          have h1 : tryNums rec1 r c b (n :: ns) = tryNums rec1 r c b ns := by
            simp only [tryNums, hv, if_true, hres, hboard]
          have h2 : tryNums rec2 r c b (n :: ns) = tryNums rec2 r c b ns := by
            simp only [tryNums, hv, if_true, hres2, hboard]
          rw [h1, h2]
          exact ih b (fun m hm => hns m (List.mem_cons_of_mem n hm)) h0 hce
    · have hv0 : is_valid b r c n = false := by
        cases h : is_valid b r c n
        · rfl
        · exact absurd h hv
      have h1 : tryNums rec1 r c b (n :: ns) = tryNums rec1 r c b ns := by
        simp only [tryNums, hv0, Bool.false_eq_true, if_false]
      have h2 : tryNums rec2 r c b (n :: ns) = tryNums rec2 r c b ns := by
        simp only [tryNums, hv0, Bool.false_eq_true, if_false]
      rw [h1, h2]
      exact ih b (fun m hm => hns m (List.mem_cons_of_mem n hm)) h0 hce

theorem solveAux_fuel_irrelevant :
    ∀ k f1 f2 b, countEmpty b ≤ k → countEmpty b < f1 → countEmpty b < f2 →
      solveAux f1 b = solveAux f2 b := by
  intro k
  induction k with
  | zero =>
    intro f1 f2 b hk h1 h2
    obtain ⟨m1, rfl⟩ : ∃ m, f1 = m + 1 := ⟨f1 - 1, by omega⟩
    obtain ⟨m2, rfl⟩ : ∃ m, f2 = m + 1 := ⟨f2 - 1, by omega⟩
    have hzero : countEmpty b = 0 := by omega
    have hfe : find_empty b = none := find_empty_of_noEmpty b (countEmpty_eq_zero b hzero)
    simp only [solveAux, hfe]
  | succ k ih =>
    intro f1 f2 b hk h1 h2
    obtain ⟨m1, rfl⟩ : ∃ m, f1 = m + 1 := ⟨f1 - 1, by omega⟩
    obtain ⟨m2, rfl⟩ : ∃ m, f2 = m + 1 := ⟨f2 - 1, by omega⟩
    cases hfe : find_empty b with
    | none => simp only [solveAux, hfe]
    | some rc =>
      obtain ⟨r, c⟩ := rc
      obtain ⟨hr, hc, h0⟩ := find_empty_eq_some b r c hfe
      have hpos := countEmpty_pos b r c hr hc h0
      have hstep1 : solveAux (m1 + 1) b =
          tryNums (solveAux m1) r c b [1, 2, 3, 4, 5, 6, 7, 8, 9] := by
        simp only [solveAux, hfe]
      have hstep2 : solveAux (m2 + 1) b =
          tryNums (solveAux m2) r c b [1, 2, 3, 4, 5, 6, 7, 8, 9] := by
        simp only [solveAux, hfe]
      rw [hstep1, hstep2]
      apply tryNums_fuel_congr (solveAux m1) (solveAux m2) r c (countEmpty b)
        (solveAux_rollback m1) hr hc ?_ _ b (by decide) h0 rfl
      intro b2 hb2
      exact ih m1 m2 b2 (by omega) (by omega) (by omega)

theorem solveAux_eq_solve (b : Board) (f : Nat) (hf : countEmpty b < f) :
    solveAux f b = solve b := by
  have h81 := countEmpty_le b
  exact solveAux_fuel_irrelevant 81 f 82 b h81 hf (by omega)

theorem removeCells_eq (stream : Nat → Fin 9 × Fin 9) (rem att : Nat) (p : Board) :
    removeCells stream rem att p =
      if 0 < rem ∧ att < 1000 then
        if p (stream att).1.val (stream att).2.val ≠ 0 then
          removeCells stream (rem - 1) (att + 1)
            (setCell p (stream att).1.val (stream att).2.val 0)
        else removeCells stream rem (att + 1) p
      else p := by
  rw [removeCells]
  exact dite_eq_ite

theorem removeCells_target_reached (stream : Nat → Fin 9 × Fin 9) (att : Nat)
    (p : Board) : removeCells stream 0 att p = p := by
  rw [removeCells_eq]
  simp

theorem removeCells_cap (stream : Nat → Fin 9 × Fin 9) (rem att : Nat) (p : Board)
    (h : 1000 ≤ att) : removeCells stream rem att p = p := by
  rw [removeCells_eq, if_neg]
  omega

theorem removeCells_cell (stream : Nat → Fin 9 × Fin 9) :
    ∀ k rem att p i j, 1000 - att ≤ k →
      removeCells stream rem att p i j = p i j ∨
      removeCells stream rem att p i j = 0 := by
  intro k
  induction k with
  | zero =>
    intro rem att p i j hk
    rw [removeCells_cap stream rem att p (by omega)]
    left
    rfl
  | succ k ih =>
    intro rem att p i j hk
    by_cases hcond : 0 < rem ∧ att < 1000
    · by_cases hnz : p (stream att).1.val (stream att).2.val ≠ 0
      · rw [removeCells_eq, if_pos hcond, if_pos hnz]
        rcases ih (rem - 1) (att + 1)
            (setCell p (stream att).1.val (stream att).2.val 0) i j (by omega) with h | h
        · by_cases hij : i = (stream att).1.val ∧ j = (stream att).2.val
          · right
            rw [h, setCell, if_pos hij]
          · left
            rw [h, setCell_ne _ _ _ _ _ _ hij]
        · right
          exact h
      · rw [removeCells_eq, if_pos hcond, if_neg hnz]
        exact ih rem (att + 1) p i j (by omega)
    · rw [removeCells_eq, if_neg hcond]
      left
      rfl

/-- C1 (counterexample): on the board whose only non-zero cell is a 5 at
(0,0), the digit 5 does not appear anywhere else in row 0, column 0, or
the containing box, yet `is_valid(board, 0, 0, 5)` returns false; the
claim, which says the check ignores the cell (row, col) itself and must
therefore return true here, is false of this code. -/
theorem c1_counterexample :
    noOccurrenceElsewhere bOwn5 0 0 5 ∧ is_valid bOwn5 0 0 5 = false := by
  decide

/-- C1 (amended): `is_valid(grid, row, col, num)` returns false iff `num`
appears anywhere in row `row`, in column `col`, or in the 3x3 box
containing (row, col) — including the cell (row, col) itself, which the
code does not ignore.  When the cell (row, col) is empty and `num` is a
digit (the only case the solver exercises), this coincides with the
spec's contract "false iff num appears elsewhere". -/
theorem c1_is_valid_characterization (b : Board) (row col num : Nat) :
    (is_valid b row col num = true ↔ noOccurrence b row col num) ∧
    (b row col = 0 → 1 ≤ num →
      (is_valid b row col num = true ↔ noOccurrenceElsewhere b row col num)) := by
  constructor
  · exact is_valid_iff b row col num
  · intro h0 hn
    rw [is_valid_iff]
    constructor
    · rintro ⟨hrc, hbox⟩
      exact ⟨fun x hx _ => (hrc x hx).1, fun x hx _ => (hrc x hx).2,
        fun i hi j hj _ => hbox i hi j hj⟩
    · rintro ⟨hrow, hcol, hbox⟩
      refine ⟨fun x hx => ⟨?_, ?_⟩, fun i hi j hj => ?_⟩
      · by_cases hxc : x = col
        · rw [hxc, h0]; omega
        · exact hrow x hx hxc
      · by_cases hxr : x = row
        · rw [hxr, h0]; omega
        · exact hcol x hx hxr
      · by_cases hcell : i + 3 * (row / 3) = row ∧ j + 3 * (col / 3) = col
        · rw [hcell.1, hcell.2, h0]; omega
        · exact hbox i hi j hj hcell

/-- C1 (witness): the characterization instantiated on the board whose only
non-zero cell is a 2 at (0,1), at the empty cell (0,0) with candidate 2. -/
theorem c1_witness :
    (is_valid bRow2 0 0 2 = true ↔ noOccurrence bRow2 0 0 2) ∧
    (is_valid bRow2 0 0 2 = true ↔ noOccurrenceElsewhere bRow2 0 0 2) :=
  ⟨(c1_is_valid_characterization bRow2 0 0 2).1,
   (c1_is_valid_characterization bRow2 0 0 2).2 (by decide) (by decide)⟩

/-- C2 (counterexample): on the all-ones board, which is completely filled,
`solve` immediately returns true (there is no empty cell to scan), yet the
resulting grid is not a Sudoku solution; the claim as stated, for every
grid, is false of this code. -/
theorem c2_counterexample :
    (solve onesBoard).1 = true ∧ ¬ isFullSolution (solve onesBoard).2 := by
  have h : solve onesBoard = (true, onesBoard) := rfl
  rw [h]
  exact ⟨rfl, by decide⟩

/-- C2 (amended): for every grid whose cells are in range [0,9] and whose
non-zero cells are conflict-free (no duplicate within a row, column or
box), if `solve` returns true then the resulting grid is a complete Sudoku
solution: every row, column and 3x3 box contains each digit 1..9 exactly
once. -/
theorem c2_solve_sound (b : Board) (hin : inRange b) (hcf : conflictFree b)
    (htrue : (solve b).1 = true) : isFullSolution (solve b).2 := by
  obtain ⟨h1, h2, h3, _⟩ := solveAux_sound 82 b hin hcf htrue
  exact full_of _ h1 h2 h3

/-- C2 (witness): the soundness theorem instantiated on a complete valid
grid, on which `solve` returns true. -/
theorem c2_witness :
    inRange bFull ∧ conflictFree bFull ∧ (solve bFull).1 = true ∧
    isFullSolution (solve bFull).2 :=
  ⟨by decide, by decide, by decide,
   c2_solve_sound bFull (by decide) (by decide) (by decide)⟩

/-- C3 (counterexample): a completely filled board with two 5s in row 0 has
no Sudoku solution, yet `solve` returns true on it (a full board is
accepted without any validity check); the claim as stated, for every
unsolvable grid, is false of this code. -/
theorem c3_counterexample :
    ¬ hasSolution bConflictFull ∧ (solve bConflictFull).1 = true := by
  constructor
  · rintro ⟨s, hag, hfull⟩
    have h5a : bConflictFull 0 0 = 5 := by decide
    have h5b : bConflictFull 0 1 = 5 := by decide
    have h00 : s 0 0 = 5 :=
      (hag 0 (by omega) 0 (by omega) (by decide)).trans h5a
    have h01 : s 0 1 = 5 :=
      (hag 0 (by omega) 1 (by omega) (by decide)).trans h5b
    have hcount := hfull.2.1 0 (by omega) 5 (by omega) (by omega)
    have h2 : 2 ≤ countLine (rowCell s 0) 5 := by
      show 2 ≤ (List.range 9).countP (fun t => rowCell s 0 t == 5)
      apply two_le_countP (List.mem_range.mpr (show 0 < 9 by omega))
        (List.mem_range.mpr (show 1 < 9 by omega)) (by omega)
      · simp [rowCell, h00]
      · simp [rowCell, h01]
    omega
  · decide

/-- C3 (amended): for every grid whose cells are in range and whose
non-zero cells are conflict-free, if the grid has no Sudoku solution then
`solve` returns false (the total Lean function raises nothing); grids that
already contain a duplicate among their filled cells are not covered — on
such grids `solve` can return true when no empty cell is left. -/
theorem c3_unsolvable_returns_false (b : Board) (hin : inRange b)
    (hcf : conflictFree b) (hnosol : ¬ hasSolution b) : (solve b).1 = false := by
  cases hres : (solve b).1 with
  | false => rfl
  | true =>
    exfalso
    obtain ⟨h1, h2, h3, h4⟩ := solveAux_sound 82 b hin hcf hres
    exact hnosol ⟨(solve b).2, h4, full_of _ h1 h2 h3⟩

/-- C3 (helper for the witness): the conflict-free board `bUnsat` has no
Sudoku solution — cell (0,8) would need the digit 9, which column 8
already holds. -/
theorem bUnsat_no_solution : ¬ hasSolution bUnsat := by
  rintro ⟨s, hag, hfull⟩
  have hs : ∀ j, j < 8 → s 0 j = j + 1 := by
    intro j hj
    have hb : bUnsat 0 j = j + 1 := by interval_cases j <;> decide
    have hnz : bUnsat 0 j ≠ 0 := by rw [hb]; omega
    exact (hag 0 (by omega) j (by omega) hnz).trans hb
  have h18 : s 1 8 = 9 :=
    (hag 1 (by omega) 8 (by omega) (by decide)).trans (by decide)
  have hb08 := hfull.1 0 (by omega) 8 (by omega)
  have h08 : s 0 8 = 9 := by
    by_contra hne
    have hd8 : s 0 8 ≤ 8 := by omega
    have hd1 : 1 ≤ s 0 8 := hb08.1
    have hsj : s 0 (s 0 8 - 1) = s 0 8 := by
      have := hs (s 0 8 - 1) (by omega)
      omega
    have hcount := hfull.2.1 0 (by omega) (s 0 8) (by omega) (by omega)
    have h2 : 2 ≤ countLine (rowCell s 0) (s 0 8) := by
      show 2 ≤ (List.range 9).countP (fun t => rowCell s 0 t == s 0 8)
      apply two_le_countP (List.mem_range.mpr (show s 0 8 - 1 < 9 by omega))
        (List.mem_range.mpr (show 8 < 9 by omega)) (by omega)
      · simp [rowCell, hsj]
      · simp [rowCell]
    omega
  have hcount9 := hfull.2.2.1 8 (by omega) 9 (by omega) (by omega)
  have h2 : 2 ≤ countLine (colCell s 8) 9 := by
    show 2 ≤ (List.range 9).countP (fun t => colCell s 8 t == 9)
    apply two_le_countP (List.mem_range.mpr (show 0 < 9 by omega))
      (List.mem_range.mpr (show 1 < 9 by omega)) (by omega)
    · simpa [colCell] using h08
    · simpa [colCell] using h18
  omega

/-- C3 (witness): the amended theorem instantiated on the conflict-free
unsolvable board `bUnsat`, on which `solve` returns false. -/
theorem c3_witness :
    inRange bUnsat ∧ conflictFree bUnsat ∧ ¬ hasSolution bUnsat ∧
    (solve bUnsat).1 = false :=
  ⟨by decide, by decide, bUnsat_no_solution,
   c3_unsolvable_returns_false bUnsat (by decide) (by decide) bUnsat_no_solution⟩

/-- C4 (counterexample): two different random streams produce the same
solution grid from `generate_puzzle`: the board handed to `solve` is the
all-zero board every time, so no randomness is injected upstream of
`solve` via block pre-filling or a shuffled starting state, contrary to
the claim. -/
theorem c4_counterexample :
    constStream ≠ otherStream ∧
    (generate_puzzle constStream "Medium").2 = (generate_puzzle otherStream "Medium").2 := by
  constructor
  · intro h
    have h0 := congrFun h 0
    exact absurd h0 (by decide)
  · rfl

/-- C4 (amended): `solve` is deterministic (a pure function of the board
state, with the fixed candidate order 1..9 and row-major scan), and
`generate_puzzle` injects no randomness upstream of `solve`: its solution
component equals the board produced by solving the all-zero board and is
therefore identical for every random stream; randomness enters only in the
downstream cell-removal phase. -/
theorem c4_determinism (s1 s2 : Nat → Fin 9 × Fin 9) (d : String) :
    (∀ b1 b2 : Board, b1 = b2 → solve b1 = solve b2) ∧
    (generate_puzzle s1 d).2 = (solve zeroBoard).2 ∧
    (generate_puzzle s1 d).2 = (generate_puzzle s2 d).2 :=
  ⟨fun _ _ h => congrArg solve h, rfl, rfl⟩

/-- C4 (witness): determinism and stream-independence at concrete inputs. -/
theorem c4_witness :
    solve onesBoard = solve onesBoard ∧
    (generate_puzzle constStream "Hard").2 = (solve zeroBoard).2 ∧
    (generate_puzzle constStream "Hard").2 = (generate_puzzle otherStream "Hard").2 :=
  ⟨(c4_determinism constStream otherStream "Hard").1 onesBoard onesBoard rfl,
   (c4_determinism constStream otherStream "Hard").2.1,
   (c4_determinism constStream otherStream "Hard").2.2⟩

/-- C5: `generate_puzzle` returns (puzzle, solution) where every cell of
the puzzle either equals the corresponding solution cell or is 0 (so every
non-zero puzzle cell equals the solution cell); the removal targets are
Easy 40, Medium 52, Hard 58, Expert 62; the loop stops as soon as the
target count is reached or the attempt counter hits the cap 1000
(silently accepting fewer removals), and it always terminates (it is a
total function, with measure 1000 - attempts). -/
theorem c5_generate_puzzle (stream : Nat → Fin 9 × Fin 9) (difficulty : String) :
    (squaresToRemove "Easy" = 40 ∧ squaresToRemove "Medium" = 52 ∧
      squaresToRemove "Hard" = 58 ∧ squaresToRemove "Expert" = 62) ∧
    (∀ i j, (generate_puzzle stream difficulty).1 i j =
        (generate_puzzle stream difficulty).2 i j ∨
      (generate_puzzle stream difficulty).1 i j = 0) ∧
    (∀ att p, removeCells stream 0 att p = p) ∧
    (∀ rem att p, 1000 ≤ att → removeCells stream rem att p = p) := by
  refine ⟨⟨rfl, rfl, rfl, rfl⟩, ?_, ?_, ?_⟩
  · intro i j
    exact removeCells_cell stream 1000 (squaresToRemove difficulty) 0
      ((solve zeroBoard).2) i j (by omega)
  · intro att p
    exact removeCells_target_reached stream att p
  · intro rem att p h
    exact removeCells_cap stream rem att p h

/-- C5 (witness): the theorem instantiated at a concrete stream,
difficulty, cell, and boards. -/
theorem c5_witness :
    ((generate_puzzle constStream "Easy").1 0 0 =
        (generate_puzzle constStream "Easy").2 0 0 ∨
      (generate_puzzle constStream "Easy").1 0 0 = 0) ∧
    removeCells constStream 0 17 onesBoard = onesBoard ∧
    (1000 ≤ 1000 ∧ removeCells constStream 5 1000 onesBoard = onesBoard) :=
  ⟨(c5_generate_puzzle constStream "Easy").2.1 0 0,
   (c5_generate_puzzle constStream "Easy").2.2.1 17 onesBoard,
   ⟨by decide, (c5_generate_puzzle constStream "Easy").2.2.2 5 1000 onesBoard (by decide)⟩⟩

/-- C6: `solve` on an already-complete grid (no cell equal to 0) that
satisfies the Sudoku constraints returns true and leaves every cell
unchanged: the very first `find_empty` returns None and the board is
returned as is. -/
theorem c6_solve_complete_identity (b : Board)
    (hfull : ∀ i, i < 9 → ∀ j, j < 9 → b i j ≠ 0) (hcf : conflictFree b) :
    solve b = (true, b) := by
  have hfe : find_empty b = none := find_empty_of_noEmpty b hfull
  show solveAux 82 b = (true, b)
  have h82 : (82 : Nat) = 81 + 1 := rfl
  rw [h82]
  simp only [solveAux, hfe]

/-- C6 (witness): the theorem instantiated on a concrete complete valid
grid. -/
theorem c6_witness :
    (∀ i, i < 9 → ∀ j, j < 9 → bFull i j ≠ 0) ∧ conflictFree bFull ∧
    solve bFull = (true, bFull) :=
  ⟨by decide, by decide, c6_solve_complete_identity bFull (by decide) (by decide)⟩

/-- C7: whenever `solve` returns false, the board is left exactly equal to
its initial state: every digit placed during the failed search was reset
to 0 before returning (full rollback on failure). -/
theorem c7_solve_rollback (b : Board) (hfalse : (solve b).1 = false) :
    (solve b).2 = b :=
  solveAux_rollback 82 b hfalse

/-- C7 (witness): rollback on a concrete board on which `solve` fails. -/
theorem c7_witness : (solve bStuck).1 = false ∧ (solve bStuck).2 = bStuck :=
  ⟨by decide, c7_solve_rollback bStuck (by decide)⟩

/-- C8: `solve` terminates on every grid with recursion depth bounded by
the number of empty cells, which is at most 81: any fuel above
`countEmpty b` yields the same result as `solve` (so the fuel-free Python
recursion needs at most 81 nested recursive calls), and each recursive
call is made on a grid with strictly fewer empty cells. -/
theorem c8_termination_depth (b : Board) :
    countEmpty b ≤ 81 ∧
    (∀ f, countEmpty b < f → solveAux f b = solve b) ∧
    (∀ r c n, r < 9 → c < 9 → b r c = 0 → 1 ≤ n →
      countEmpty (setCell b r c n) < countEmpty b) := by
  refine ⟨countEmpty_le b, fun f hf => solveAux_eq_solve b f hf, ?_⟩
  intro r c n hr hc h0 hn
  have := countEmpty_setCell b r c n hr hc h0 (by omega)
  omega

/-- C8 (witness): the bound, fuel-irrelevance and strict decrease at the
all-zero board with the placement of a 5 at (0,0). -/
theorem c8_witness :
    countEmpty zeroBoard ≤ 81 ∧
    (countEmpty zeroBoard < 82 ∧ solveAux 82 zeroBoard = solve zeroBoard) ∧
    (zeroBoard 0 0 = 0 ∧
      countEmpty (setCell zeroBoard 0 0 5) < countEmpty zeroBoard) :=
  ⟨(c8_termination_depth zeroBoard).1,
   ⟨by decide, (c8_termination_depth zeroBoard).2.1 82 (by decide)⟩,
   ⟨by decide, (c8_termination_depth zeroBoard).2.2 0 0 5 (by decide) (by decide)
     (by decide) (by decide)⟩⟩

/-- C9: the difficulty-to-removal mapping is strictly monotone (Easy 40 <
Medium 52 < Hard 58 < Expert 62), so the Easy target keeps more filled
cells than the Hard target. -/
theorem c9_difficulty_monotone :
    squaresToRemove "Easy" < squaresToRemove "Medium" ∧
    squaresToRemove "Medium" < squaresToRemove "Hard" ∧
    squaresToRemove "Hard" < squaresToRemove "Expert" ∧
    81 - squaresToRemove "Hard" < 81 - squaresToRemove "Easy" := by
  decide

/-- C10: `computeScore` (modelled from the spec; the repository ships no
scoring code) is the pure function
`max(baseScore - elapsedSeconds - hintsUsed * penaltyPerHint, 0)`, is
never negative, and gives 780 and 0 on the spec's two examples. -/
theorem c10_computeScore :
    (∀ b e h p : Int,
      computeScore b e h p = max (b - e - h * p) 0 ∧ 0 ≤ computeScore b e h p) ∧
    computeScore 1000 120 2 50 = 780 ∧ computeScore 1000 2000 0 50 = 0 :=
  ⟨fun _ _ _ _ => ⟨rfl, le_max_right _ _⟩, by decide, by decide⟩

end Sudoku
